import Mathlib

/-!
Verification of `build_wordlist.py`.

This file gives a shallow embedding, in Lean 4, of the pure core of
`build_wordlist.py`: the word filter `process_words`, the archive-member
qualification rule built from `WORD_FILE_PATTERN` and `os.path.basename`
(as used by `extract_words`), the output serialisation of `save_outputs`,
the post-extraction control flow of `main`, and the error behaviour of
`get_download_url`.  Python strings are modelled as Lean `String`
(a list of unicode scalar values, matching a Python `str` of code
points), and the Python primitives the script uses (`str.strip`,
`str.isalpha`, `str.encode("ascii")`, `str.lower`, `str.splitlines`,
`str.join`, `os.path.basename`, `json.dump`, `re.match` of the one
fixed pattern) are modelled explicitly below, each with a comment
stating the modelled fragment of the Python semantics.
-/

/-! ## Models of the Python string primitives used by the script -/

/-- Model of membership in the set of characters stripped by Python
`str.strip()` with no argument, i.e. the characters `c` with
`c.isspace() == True`: the ASCII whitespace and separator controls
(U+0009 to U+000D, U+001C to U+001F, U+0020), next line U+0085,
no-break space U+00A0, and the unicode space separators
(U+1680, U+2000 to U+200A, U+2028, U+2029, U+202F, U+205F, U+3000). -/
def pyIsSpaceChar (c : Char) : Bool :=
  let n := c.toNat
  decide ((9 ≤ n ∧ n ≤ 13) ∨ (28 ≤ n ∧ n ≤ 32) ∨ n = 0x85 ∨ n = 0xa0 ∨
    n = 0x1680 ∨ (0x2000 ≤ n ∧ n ≤ 0x200a) ∨ n = 0x2028 ∨ n = 0x2029 ∨
    n = 0x202f ∨ n = 0x205f ∨ n = 0x3000)

/-- Model of Python `line.strip()`: remove leading and trailing
whitespace characters. -/
def pyStrip (s : String) : String :=
  String.mk (((s.data.dropWhile pyIsSpaceChar).reverse.dropWhile pyIsSpaceChar).reverse)

/-- Model of the Python per-character predicate `c.isalpha()` (unicode
category L*), rendered faithfully on the Basic Latin and Latin-1
Supplement blocks (U+0000 to U+00FF): the ASCII letters, the feminine
and masculine ordinal indicators U+00AA and U+00BA, micro sign U+00B5,
and the Latin-1 letters U+00C0 to U+00FF minus the multiplication and
division signs U+00D7 and U+00F7.  Code points above U+00FF are
modelled as non-alphabetic; no claim below exercises them, and inside
`process_words` every accepted word is in any case forced to pure
ASCII by the subsequent `word.encode("ascii")` check. -/
def pyIsAlphaChar (c : Char) : Bool :=
  let n := c.toNat
  decide ((65 ≤ n ∧ n ≤ 90) ∨ (97 ≤ n ∧ n ≤ 122) ∨ n = 0xaa ∨ n = 0xb5 ∨
    n = 0xba ∨ (0xc0 ≤ n ∧ n ≤ 0xd6) ∨ (0xd8 ≤ n ∧ n ≤ 0xf6) ∨
    (0xf8 ≤ n ∧ n ≤ 0xff))

/-- Model of Python `word.isalpha()`: true iff the string is nonempty
and every character is alphabetic. -/
def pyIsAlpha (s : String) : Bool :=
  decide (s.data ≠ []) && s.data.all pyIsAlphaChar

/-- Model of the success condition of Python `word.encode("ascii")`:
it succeeds (raises no `UnicodeEncodeError`) iff every code point of
the string is below 128. -/
def pyEncodableAscii (s : String) : Bool :=
  s.data.all (fun c => decide (c.toNat < 128))

/-- Model of the Python per-character lowercase map used by
`str.lower()`, on its ASCII fragment: the letters A to Z map to
a to z (code point plus 32) and every other character is returned
unchanged.  In `process_words` the map is applied only to strings
that already passed the `word.encode("ascii")` check, so only the
ASCII fragment of `str.lower()` is exercised there. -/
def pyLowerChar (c : Char) : Char :=
  if 65 ≤ c.toNat ∧ c.toNat ≤ 90 then Char.ofNat (c.toNat + 32) else c

/-- Model of Python `word.lower()` on ASCII strings: lowercase each
character. -/
def pyLower (s : String) : String :=
  String.mk (s.data.map pyLowerChar)

/-- Model of Python `word.startswith("#")`: the string is nonempty and
its first character is the hash sign. -/
def pyStartsWithHash (s : String) : Bool :=
  match s.data with
  | [] => false
  | c :: _ => c == '#'

/-! ## The word filter: `process_words` -/

/-- One iteration of the `for line in raw_words` loop body of
`process_words` (src/build_wordlist.py lines 179-209).  The state is
the pair `(seen, clean)`: the Python `seen` set is modelled as the
list of its elements (membership is all the code uses), and `clean`
is the accepted list in acceptance order. -/
def processLine (st : List String × List String) (line : String) :
    List String × List String :=
  let word := pyStrip line
  if word = "" then st
  else if pyStartsWithHash word then st
  else if !pyIsAlpha word then st
  else if !pyEncodableAscii word then st
  else if word.data.length ≠ 5 then st
  else
    let word_lower := pyLower word
    if word_lower ∈ st.1 then st
    else (word_lower :: st.1, st.2 ++ [word_lower])

/-- Strict lexicographic order on lists of characters, compared by
code point.  This is the order Python uses to compare two strings
(`a < b` on `str` compares code points lexicographically). -/
def charListLt : List Char → List Char → Bool
  | [], [] => false
  | [], _ :: _ => true
  | _ :: _, [] => false
  | a :: as, b :: bs =>
    if a.toNat < b.toNat then true
    else if b.toNat < a.toNat then false
    else charListLt as bs

/-- Model of the strict order `a < b` on Python strings. -/
def pyStrLt (a b : String) : Bool :=
  charListLt a.data b.data

/-- Model of the order `a <= b` on Python strings: the negation of the
reversed strict order, as in any total order. -/
def pyStrLe (a b : String) : Bool :=
  !(pyStrLt b a)

/-- Model of `process_words` (src/build_wordlist.py lines 167-215):
fold the per-line acceptance over the raw lines, then sort.  Python
`clean.sort()` produces the stable permutation of `clean` sorted by
the string order (lexicographic on code points); since any two
permutations of the same list that are both sorted by a total
antisymmetric order are equal, `List.insertionSort` with the same
order computes the same list. -/
def process_words (raw_words : List String) : List String :=
  let st := raw_words.foldl processLine ([], [])
  List.insertionSort (fun a b : String => pyStrLe a b = true) st.2

example : process_words ["apple", "APPLE", "brick", "", "a cat"] = ["apple", "brick"] := by decide

/-! ## The archive scanner: `WORD_FILE_PATTERN`, `extract_words` -/

/-- Model of the regex class `\d` on ASCII input: the digits 0 to 9. -/
def isDigitChar (c : Char) : Bool :=
  decide (48 ≤ c.toNat ∧ c.toNat ≤ 57)

/-- Value of a digit string as read by Python `int(...)`: fold the
digits most significant first.  Leading zeros are allowed by `int`
and contribute nothing, exactly as here. -/
def digitsVal (ds : List Char) : Nat :=
  ds.foldl (fun acc c => acc * 10 + (c.toNat - 48)) 0

/-- The six fixed dictionary-variant alternatives of
`WORD_FILE_PATTERN` (src/build_wordlist.py lines 114-119), lowercased. -/
def fixedVariants : List (List Char) :=
  ["english".data, "american".data, "british".data, "canadian".data,
   "australian".data, "variant".data]

/-- Model of matching the first capture group of `WORD_FILE_PATTERN`,
that is `english|american|british|canadian|australian|variant|.*-words?`
under `re.IGNORECASE`, against the whole character list `g1`: either
the lowercased list is one of the six fixed variants, or `g1` is
`p ++ "-word"` or `p ++ "-words"` up to ASCII case with `p` free of
newlines (the dot of the regex matches any character except a
newline; `re.IGNORECASE` is modelled by comparing ASCII-lowercased
characters, which is exact for ASCII and for case-free characters).
The suffix test on the lowercased list is equivalent to the
decomposition because the literal `-word`/`-words` is newline free. -/
def group1Matches (g1 : List Char) : Bool :=
  let low := g1.map pyLowerChar
  fixedVariants.contains low ||
    (decide ('\n' ∉ low) &&
      (List.isSuffixOf "-words".data low || List.isSuffixOf "-word".data low))

/-- Core of the model of `WORD_FILE_PATTERN.match(filename)` followed,
on success, by `int(match.group(2))`.  The regex is
`(english|american|...|variant|.*-words?)\.(\d+)$` with `re.match`
anchoring at the start and the final `$` anchoring at the end of the
string or just before one final newline.  Any successful match must
decompose the name as `g1 ++ "." ++ ds` (plus at most one final
newline), with `ds` a nonempty digit string; since digits are not
dots, `ds` is necessarily the maximal digit suffix, so the
decomposition is unique and is computed here by scanning from the
end: the argument is the reversed name with the optional final
newline already removed.  Group 2 of the match is `ds` and the
returned value is its integer value. -/
def matchTail (dsRev : List Char) : List Char → Option Nat
  | [] => none
  | c :: g1rev =>
    if c = '.' ∧ dsRev ≠ [] ∧ group1Matches g1rev.reverse = true then
      some (digitsVal dsRev.reverse)
    else none

/-- Split the reversed newline-stripped name into its maximal digit
suffix and the rest, and hand both to the dot-and-group test. -/
def matchCore (rev1 : List Char) : Option Nat :=
  matchTail (rev1.takeWhile isDigitChar) (rev1.dropWhile isDigitChar)

/-- Strip the at most one final newline that the `$` anchor may skip,
then run the anchored tail match; the input is the reversed name. -/
def matchRev (rev : List Char) : Option Nat :=
  match rev with
  | [] => matchCore []
  | c :: rest => if c = '\n' then matchCore rest else matchCore (c :: rest)

/-- Model of applying `WORD_FILE_PATTERN.match(filename)` and, on
success, reading `int(match.group(2))`; see `matchCore` above. -/
def matchWordFile (filename : String) : Option Nat :=
  matchRev filename.data.reverse

/-- Model of `os.path.basename` under POSIX path rules, as applied to
an archive member name: the part of the name after its last slash. -/
def pyBasename (p : String) : String :=
  String.mk ((p.data.reverse.takeWhile (fun c => c != '/')).reverse)

/-- Configuration constant `MIN_LEVEL` (src/build_wordlist.py line 36). -/
def MIN_LEVEL : Nat := 10

/-- Configuration constant `MAX_LEVEL` (src/build_wordlist.py line 37). -/
def MAX_LEVEL : Nat := 70

/-- The member-selection rule of `extract_words`
(src/build_wordlist.py lines 133-141): take the basename of the
member name, match it against `WORD_FILE_PATTERN`, and require the
captured level to satisfy `MIN_LEVEL <= level <= MAX_LEVEL`. -/
def memberQualifies (name : String) : Bool :=
  match matchWordFile (pyBasename name) with
  | some level => decide (MIN_LEVEL ≤ level ∧ level ≤ MAX_LEVEL)
  | none => false

example : matchWordFile "english-words.60" = some 60 := by decide
example : matchWordFile "english-words.85" = some 85 := by decide
example : matchWordFile "english.50" = some 50 := by decide
example : matchWordFile "ENGLISH-WORDS.60" = some 60 := by decide
example : matchWordFile "x-words.60\n" = some 60 := by decide
example : matchWordFile "x-words.60\n\n" = none := by decide
example : matchWordFile "foo-word.10" = some 10 := by decide
example : matchWordFile "foo-wordz.10" = none := by decide
example : matchWordFile "-words.5" = some 5 := by decide
example : matchWordFile "a-words.5-words.10" = some 10 := by decide
example : matchWordFile "words.10" = none := by decide
example : matchWordFile "xwords.10" = none := by decide
example : matchWordFile "x-words." = none := by decide
example : matchWordFile "scowl-x/final/english-words.50" = some 50 := by decide
example : memberQualifies "scowl-x/final/english-words.50" = true := by decide
example : memberQualifies "english-words.85" = false := by decide

/-- Accumulator form of line splitting: `acc` holds the characters of
the current line in reverse. -/
def splitLinesAux : List Char → List Char → List (List Char)
  | [], acc => if acc.isEmpty then [] else [acc.reverse]
  | c :: cs, acc =>
    if c = '\n' then acc.reverse :: splitLinesAux cs []
    else splitLinesAux cs (c :: acc)

/-- Model of Python `text.splitlines()` for texts whose only line
terminator is the newline character: split at each newline, with no
empty final entry when the text ends in a newline.  Python also
breaks on a handful of other terminators (carriage return, vertical
tab, form feed, ...); the claims below only exercise newline
separated text, and the text written by `save_outputs` contains no
other terminator. -/
def pySplitlines (s : String) : List String :=
  (splitLinesAux s.data []).map String.mk

example : pySplitlines "a\nb\n" = ["a", "b"] := by decide
example : pySplitlines "a\nb" = ["a", "b"] := by decide
example : pySplitlines "\n" = [""] := by decide
example : pySplitlines "" = [] := by decide

/-- An archive member as `extract_words` consumes it: a name, and the
decoded text of the member if `tar.extractfile` returns a file object
(`none` models the `fobj is None` case of directories and special
members).  The decode `fobj.read().decode("utf-8", errors="ignore")`
never raises, so a readable member always yields a text. -/
structure TarMember where
  name : String
  fileText : Option String

/-- Model of the member loop of `extract_words`
(src/build_wordlist.py lines 121-162): for each member whose basename
matches the pattern with an in-range level and which yields a file
object, append all lines of its text to the raw word list and count
the file as read.  The tar iteration order is the member list order. -/
def extract_words (members : List TarMember) : List String × Nat :=
  members.foldl
    (fun acc m =>
      if memberQualifies m.name then
        match m.fileText with
        | none => acc
        | some text => (acc.1 ++ pySplitlines text, acc.2 + 1)
      else acc)
    ([], 0)

/-! ## The output writer: `save_outputs` -/

/-- Model of Python `sep.join(words)`. -/
def pyJoin (sep : String) : List String → String
  | [] => ""
  | [w] => w
  | w :: ws => w ++ sep ++ pyJoin sep ws

/-- Content of `five_letter_words.txt` as written by `save_outputs`
(src/build_wordlist.py lines 229-230): the words joined by newlines,
with one final newline. -/
def txtFileContent (words : List String) : String :=
  pyJoin "\n" words ++ "\n"

/-- Lowercase hexadecimal digit, as used by the `\uXXXX` escapes of
`json.dump`. -/
def hexDigit (n : Nat) : Char :=
  if n < 10 then Char.ofNat (48 + n) else Char.ofNat (87 + n % 16)

/-- Four-digit lowercase hexadecimal rendering of a code point. -/
def hex4 (n : Nat) : String :=
  String.mk [hexDigit (n / 4096 % 16), hexDigit (n / 256 % 16),
             hexDigit (n / 16 % 16), hexDigit (n % 16)]

/-- Model of the per-character escaping of `json.dump` with
`ensure_ascii=True`, for characters of the basic multilingual plane:
quote and backslash get a backslash escape, the five named control
characters get their two-character escapes, all other characters
below U+0020 or above U+007E get a `\uXXXX` escape, and the rest is
emitted verbatim. -/
def jsonEscapeChar (c : Char) : String :=
  if c = '"' then "\\\""
  else if c = '\\' then "\\\\"
  else if c = '\n' then "\\n"
  else if c = '\r' then "\\r"
  else if c = '\t' then "\\t"
  else if c = '\x08' then "\\b"
  else if c = '\x0c' then "\\f"
  else if c.toNat < 32 ∨ 127 ≤ c.toNat then "\\u" ++ hex4 c.toNat
  else String.mk [c]

/-- JSON string-body escaping of a whole string, character by
character. -/
def jsonEscapeList : List Char → List Char
  | [] => []
  | c :: cs => (jsonEscapeChar c).data ++ jsonEscapeList cs

/-- Model of the text produced by
`json.dump(words, f, indent=2, ensure_ascii=True)` for a list of
strings (src/build_wordlist.py line 235): the empty list renders as
a bare bracket pair, and a nonempty list renders one two-space
indented quoted string per line, comma separated, between brackets
on their own lines. -/
def jsonDumpStrList (words : List String) : String :=
  match words with
  | [] => "[]"
  | _ =>
    "[\n" ++
      pyJoin ",\n"
        (words.map (fun w => "  \"" ++ String.mk (jsonEscapeList w.data) ++ "\"")) ++
      "\n]"

/-- Content of `five_letter_words.json` as written by `save_outputs`
(src/build_wordlist.py lines 234-236): the JSON dump followed by the
explicitly written final newline. -/
def jsonFileContent (words : List String) : String :=
  jsonDumpStrList words ++ "\n"

example : txtFileContent ["apple", "brick"] = "apple\nbrick\n" := by decide
example :
    jsonFileContent ["apple", "brick"] = "[\n  \"apple\",\n  \"brick\"\n]\n" := by
  decide

/-! ## The entry point: post-extraction control flow of `main` -/

/-- Model of the tail of `main` (src/build_wordlist.py lines 258-269)
from the point where the archive members are in hand: collect the raw
lines with `extract_words`, filter them with `process_words`, and
either exit with status 1 when the filtered list is empty, without
writing any file, or produce the contents of the two output files via
`save_outputs`.  The error value is the process exit status; the
success value is the pair (text file content, json file content). -/
def runPipeline (members : List TarMember) : Except Nat (String × String) :=
  let raw := (extract_words members).1
  let words := process_words raw
  if words = [] then Except.error 1
  else Except.ok (txtFileContent words, jsonFileContent words)

/-! ## The source resolver: `get_download_url` -/

/-- Python values as returned by `json.loads`: null, booleans,
numbers, strings, arrays (lists) and objects (dicts, modelled as
association lists with distinct keys, which `json.loads` guarantees
by keeping the last duplicate; numbers are modelled as integers,
which is all the fidelity the resolver needs). -/
inductive PyJson where
  | jnull : PyJson
  | jbool : Bool → PyJson
  | jnum : Int → PyJson
  | jstr : String → PyJson
  | jarr : List PyJson → PyJson
  | jobj : List (String × PyJson) → PyJson

/-- Model of Python truthiness, as used by `if tarball_url:`. -/
def pyTruthy : PyJson → Bool
  | .jnull => false
  | .jbool b => b
  | .jnum n => decide (n ≠ 0)
  | .jstr s => decide (s ≠ "")
  | .jarr xs => !xs.isEmpty
  | .jobj fs => !fs.isEmpty

/-- Model of Python `data.get(key, default)` on a dict. -/
def dictGet (fs : List (String × PyJson)) (key : String) (dflt : PyJson) : PyJson :=
  match fs.find? (fun p => p.1 == key) with
  | some p => p.2
  | none => dflt

/-- Outcome of the metadata query
`json.loads(resp.read().decode())` inside `get_download_url`
(src/build_wordlist.py lines 47-54), one constructor per disjoint
possibility: the network request raises `urllib.error.URLError`; the
response bytes are not valid UTF-8, so `bytes.decode` raises
`UnicodeDecodeError`; the decoded text is not valid JSON, so
`json.loads` raises `json.JSONDecodeError`; or a JSON value is
parsed. -/
inductive MetaResponse where
  | netError : MetaResponse
  | decodeError : MetaResponse
  | jsonError : MetaResponse
  | jsonValue : PyJson → MetaResponse

/-- The Python exceptions that can escape `get_download_url`. -/
inductive PyExc where
  | unicodeDecodeError : PyExc
  | attributeError : PyExc
deriving DecidableEq

/-- Configuration constant `FALLBACK_URL` (src/build_wordlist.py
line 27). -/
def FALLBACK_URL : String :=
  "https://github.com/en-us/scowl/archive/refs/heads/master.tar.gz"

/-- Model of `get_download_url` (src/build_wordlist.py lines 41-67)
as a function of the metadata-query outcome.  The `try` block catches
exactly `(urllib.error.URLError, json.JSONDecodeError, KeyError)`:

* a `URLError` from the request is caught, so the fallback URL is
  returned;
* a `JSONDecodeError` from `json.loads` is caught, so the fallback
  URL is returned;
* a `UnicodeDecodeError` from `resp.read().decode()` is not in the
  caught tuple (it is a sibling of `JSONDecodeError` under
  `ValueError`, not a subclass of it), so it propagates to the
  caller;
* if the parsed value is not a dict, the attribute access
  `data.get` raises `AttributeError`, which is not in the caught
  tuple either, so it propagates;
* on a dict, `data.get("tarball_url", "")` never raises (so the
  caught `KeyError` is unreachable); the value is returned when
  truthy, and otherwise the fallback URL is returned.

The result is the returned Python value (`data.get` can in principle
produce a non-string) or the escaping exception. -/
def get_download_url (r : MetaResponse) : Except PyExc PyJson :=
  match r with
  | .netError => Except.ok (.jstr FALLBACK_URL)
  | .decodeError => Except.error .unicodeDecodeError
  | .jsonError => Except.ok (.jstr FALLBACK_URL)
  | .jsonValue v =>
    match v with
    | .jobj fs =>
      let tarball_url := dictGet fs "tarball_url" (.jstr "")
      if pyTruthy tarball_url then Except.ok tarball_url
      else Except.ok (.jstr FALLBACK_URL)
    | _ => Except.error .attributeError

/-! ## A JSON string-array parser, the reader side of the round trip -/

/-- JSON insignificant whitespace. -/
def jsonWsChar (c : Char) : Bool :=
  c = ' ' || c = '\n' || c = '\t' || c = '\r'

/-- Scan the body of a JSON string literal up to its closing quote.
Escape sequences are not consumed (the words this development parses
need none); a backslash makes the parse fail rather than guess. -/
def scanJsonString : List Char → Option (List Char × List Char)
  | [] => none
  | c :: cs =>
    if c = '"' then some ([], cs)
    else if c = '\\' then none
    else (scanJsonString cs).map (fun p => (c :: p.1, p.2))

/-- Parse one JSON string literal, including its opening quote. -/
def parseJsonString : List Char → Option (List Char × List Char)
  | [] => none
  | c :: cs => if c = '"' then scanJsonString cs else none

/-- Parse the comma separated items of a nonempty JSON string array,
consuming the closing bracket.  The fuel decreases at each comma, so
any fuel at least the number of items suffices. -/
def parseJsonItems : Nat → List Char → Option (List String × List Char)
  | 0, _ => none
  | fuel + 1, cs =>
    match parseJsonString cs with
    | none => none
    | some (w, r) =>
      match r.dropWhile jsonWsChar with
      | [] => none
      | c :: r2 =>
        if c = ',' then
          match parseJsonItems fuel (r2.dropWhile jsonWsChar) with
          | some (ws, rest) => some (String.mk w :: ws, rest)
          | none => none
        else if c = ']' then some ([String.mk w], r2)
        else none

/-- Parse a whole text as a JSON array of string literals: optional
whitespace, a bracketed comma separated list of strings, optional
whitespace, end of input. -/
def parseJsonStringArray (s : String) : Option (List String) :=
  match s.data.dropWhile jsonWsChar with
  | [] => none
  | c :: r =>
    if c = '[' then
      match r.dropWhile jsonWsChar with
      | [] => none
      | d :: r2 =>
        if d = ']' then
          if (r2.dropWhile jsonWsChar).isEmpty then some [] else none
        else
          match parseJsonItems ((d :: r2).length + 1) (d :: r2) with
          | some (ws, rest) =>
            if (rest.dropWhile jsonWsChar).isEmpty then some ws else none
          | none => none
    else none

example : parseJsonStringArray "[\n  \"apple\",\n  \"brick\"\n]\n" = some ["apple", "brick"] := by decide
example : parseJsonStringArray (jsonFileContent ["fjord"]) = some ["fjord"] := by decide

/-! ## Helper lemmas: characters -/

lemma char_eq_of_toNat_eq {a b : Char} (h : a.toNat = b.toNat) : a = b := by
  calc a = Char.ofNat a.toNat := (Char.ofNat_toNat a).symm
    _ = Char.ofNat b.toNat := by rw [h]
    _ = b := Char.ofNat_toNat b

lemma toNat_ofNat_small {n : Nat} (h : n < 55296) : (Char.ofNat n).toNat = n := by
  rw [Char.ofNat, dif_pos (Or.inl h)]
  rfl

lemma pyLowerChar_of_upper {c : Char} (h : 65 ≤ c.toNat ∧ c.toNat ≤ 90) :
    (pyLowerChar c).toNat = c.toNat + 32 := by
  rw [pyLowerChar, if_pos h, toNat_ofNat_small (by omega)]

lemma pyLowerChar_of_not_upper {c : Char} (h : ¬(65 ≤ c.toNat ∧ c.toNat ≤ 90)) :
    pyLowerChar c = c := by
  rw [pyLowerChar, if_neg h]

/-- An ASCII alphabetic character lowercases into the range a to z. -/
lemma pyLowerChar_ascii_alpha {c : Char} (h1 : pyIsAlphaChar c = true)
    (h2 : c.toNat < 128) :
    97 ≤ (pyLowerChar c).toNat ∧ (pyLowerChar c).toNat ≤ 122 := by
  rw [pyIsAlphaChar, decide_eq_true_eq] at h1
  by_cases h3 : 65 ≤ c.toNat ∧ c.toNat ≤ 90
  · rw [pyLowerChar_of_upper h3]; omega
  · rw [pyLowerChar_of_not_upper h3]
    rcases h1 with h | h | h | h | h | h | h | h <;> omega

lemma pyLowerChar_id_of_lower {c : Char} (h : 97 ≤ c.toNat ∧ c.toNat ≤ 122) :
    pyLowerChar c = c :=
  pyLowerChar_of_not_upper (by omega)

/-! ## Helper lemmas: the lexicographic order -/

lemma charListLt_trans : ∀ a b c : List Char,
    charListLt a b = true → charListLt b c = true → charListLt a c = true := by
  intro a
  induction a with
  | nil =>
    intro b c hab hbc
    cases b with
    | nil => simp [charListLt] at hab
    | cons y ys =>
      cases c with
      | nil => simp [charListLt] at hbc
      | cons z zs => simp [charListLt]
  | cons x xs ih =>
    intro b c hab hbc
    cases b with
    | nil => simp [charListLt] at hab
    | cons y ys =>
      cases c with
      | nil => simp [charListLt] at hbc
      | cons z zs =>
        simp only [charListLt] at hab hbc ⊢
        split_ifs at hab hbc ⊢ <;>
          first
          | rfl
          | omega
          | exact ih ys zs hab hbc

lemma charListLt_asymm : ∀ a b : List Char,
    charListLt a b = true → charListLt b a = false := by
  intro a
  induction a with
  | nil =>
    intro b hab
    cases b with
    | nil => simp [charListLt] at hab
    | cons y ys => simp [charListLt]
  | cons x xs ih =>
    intro b hab
    cases b with
    | nil => simp [charListLt] at hab
    | cons y ys =>
      simp only [charListLt] at hab ⊢
      split_ifs at hab ⊢ <;>
        first
        | rfl
        | omega
        | exact ih ys hab

lemma charListLt_conn : ∀ a b : List Char,
    charListLt a b = false → charListLt b a = false → a = b := by
  intro a
  induction a with
  | nil =>
    intro b hab _
    cases b with
    | nil => rfl
    | cons y ys => simp [charListLt] at hab
  | cons x xs ih =>
    intro b hab hba
    cases b with
    | nil => simp [charListLt] at hba
    | cons y ys =>
      simp only [charListLt] at hab hba
      split_ifs at hab hba
      rename_i h1 h2
      rw [char_eq_of_toNat_eq (by omega : x.toNat = y.toNat), ih ys hab hba]

lemma string_data_inj {a b : String} (h : a.data = b.data) : a = b := by
  cases a
  cases b
  congr 1

lemma pyStrLe_total (a b : String) : pyStrLe a b = true ∨ pyStrLe b a = true := by
  rw [pyStrLe, pyStrLe]
  cases h : pyStrLt b a
  · left; rfl
  · right
    rw [pyStrLt] at h ⊢
    rw [charListLt_asymm _ _ h]
    rfl

lemma pyStrLe_trans {a b c : String} (h1 : pyStrLe a b = true) (h2 : pyStrLe b c = true) :
    pyStrLe a c = true := by
  rw [pyStrLe, Bool.not_eq_true'] at h1 h2 ⊢
  rw [pyStrLt] at h1 h2 ⊢
  cases hca : charListLt c.data a.data with
  | false => rfl
  | true =>
    exfalso
    cases hab : charListLt a.data b.data with
    | false =>
      have heq : a.data = b.data := charListLt_conn _ _ hab h1
      rw [heq] at hca
      rw [h2] at hca
      exact Bool.noConfusion hca
    | true =>
      have htr := charListLt_trans _ _ _ hca hab
      rw [h2] at htr
      exact Bool.noConfusion htr

lemma pyStrLt_of_le_of_ne {a b : String} (h1 : pyStrLe a b = true) (h2 : a ≠ b) :
    pyStrLt a b = true := by
  rw [pyStrLe, Bool.not_eq_true'] at h1
  cases hab : pyStrLt a b with
  | false =>
    exfalso
    rw [pyStrLt] at hab h1
    exact h2 (string_data_inj (charListLt_conn _ _ hab h1))
  | true => rfl

/-! ## Helper lemmas: the filter invariant -/

/-- The invariant of the final word set stated by the spec: length
exactly five, all characters lowercase ASCII letters (code points 97
to 122). -/
def goodWord (w : String) : Prop :=
  w.data.length = 5 ∧ ∀ c ∈ w.data, 97 ≤ c.toNat ∧ c.toNat ≤ 122

/-- Loop invariant of `process_words`: every accepted word is good,
the accepted list has no duplicates, and every accepted word is
recorded in the seen set. -/
def FilterInv (st : List String × List String) : Prop :=
  (∀ w ∈ st.2, goodWord w) ∧ st.2.Nodup ∧ ∀ w ∈ st.2, w ∈ st.1

lemma processLine_inv {st : List String × List String} {line : String}
    (h : FilterInv st) : FilterInv (processLine st line) := by
  obtain ⟨hgood, hnodup, hseen⟩ := h
  simp only [processLine]
  split
  · exact ⟨hgood, hnodup, hseen⟩
  split
  · exact ⟨hgood, hnodup, hseen⟩
  split
  · exact ⟨hgood, hnodup, hseen⟩
  split
  · exact ⟨hgood, hnodup, hseen⟩
  split
  · exact ⟨hgood, hnodup, hseen⟩
  split
  · exact ⟨hgood, hnodup, hseen⟩
  rename_i hne hcomment halpha hascii hlen hdup
  simp only [Bool.not_eq_true, Bool.not_eq_false'] at halpha hascii
  have hlen : (pyStrip line).data.length = 5 := not_not.mp hlen
  have halpha2 : ∀ c ∈ (pyStrip line).data, pyIsAlphaChar c = true := by
    rw [pyIsAlpha, Bool.and_eq_true, List.all_eq_true] at halpha
    exact halpha.2
  have hascii2 : ∀ c ∈ (pyStrip line).data, c.toNat < 128 := by
    rw [pyEncodableAscii, List.all_eq_true] at hascii
    intro c hc
    exact of_decide_eq_true (hascii c hc)
  have hgoodNew : goodWord (pyLower (pyStrip line)) := by
    constructor
    · simpa [pyLower] using hlen
    · intro c hc
      simp only [pyLower, List.mem_map] at hc
      obtain ⟨c0, hc0, rfl⟩ := hc
      exact pyLowerChar_ascii_alpha (halpha2 c0 hc0) (hascii2 c0 hc0)
  refine ⟨?_, ?_, ?_⟩
  · intro w hw
    rcases List.mem_append.mp hw with hw | hw
    · exact hgood w hw
    · rw [List.mem_singleton] at hw
      exact hw ▸ hgoodNew
  · rw [List.nodup_append]
    refine ⟨hnodup, List.nodup_singleton _, ?_⟩
    rw [List.disjoint_singleton]
    exact fun hmem => hdup (hseen _ hmem)
  · intro w hw
    rcases List.mem_append.mp hw with hw | hw
    · exact List.mem_cons_of_mem _ (hseen w hw)
    · rw [List.mem_singleton] at hw
      exact hw ▸ List.mem_cons_self _ _

lemma foldl_filterInv (raw : List String) :
    ∀ st : List String × List String, FilterInv st →
      FilterInv (raw.foldl processLine st) := by
  induction raw with
  | nil => intro st h; exact h
  | cons line rest ih =>
    intro st h
    exact ih _ (processLine_inv h)

lemma process_words_clean_inv (raw : List String) :
    FilterInv (raw.foldl processLine ([], [])) :=
  foldl_filterInv raw ([], []) ⟨by simp, List.nodup_nil, by simp⟩

lemma string_mk_data (s : String) : String.mk s.data = s := rfl

lemma map_id_of_mem {f : Char → Char} :
    ∀ l : List Char, (∀ c ∈ l, f c = c) → l.map f = l := by
  intro l
  induction l with
  | nil => intro _; rfl
  | cons c cs ih =>
    intro h
    simp only [List.map_cons]
    rw [h c (by simp), ih (fun x hx => h x (by simp [hx]))]

/-! ## Claim C1 -/

/-- Claim C1: for every input list of raw lines, every word in the
list returned by `process_words` has length exactly 5, consists only
of lowercase ASCII letters (code points 97 to 122, that is a to z,
so in particular the word is fixed by case folding), and the output
list has no duplicates; since all members are already lowercase,
there are no duplicates after case folding either. -/
theorem C1_wordset_invariant (raw : List String) :
    (∀ w ∈ process_words raw,
      w.data.length = 5 ∧ (∀ c ∈ w.data, 97 ≤ c.toNat ∧ c.toNat ≤ 122) ∧
        pyLower w = w) ∧
    (process_words raw).Nodup := by
  obtain ⟨hgood, hnodup, _⟩ := process_words_clean_inv raw
  constructor
  · intro w hw
    simp only [process_words] at hw
    rw [List.mem_insertionSort] at hw
    obtain ⟨hlen, hchars⟩ := hgood w hw
    refine ⟨hlen, hchars, ?_⟩
    rw [pyLower, map_id_of_mem _ (fun c hc => pyLowerChar_id_of_lower (hchars c hc)),
      string_mk_data]
  · simp only [process_words]
    exact (List.perm_insertionSort _ _).nodup_iff.mpr hnodup

/-- Witness for C1 at the concrete input consisting of the single
line apple. -/
theorem C1_witness :
    "apple" ∈ process_words ["apple"] ∧
      ("apple".data.length = 5 ∧
        (∀ c ∈ "apple".data, 97 ≤ c.toNat ∧ c.toNat ≤ 122) ∧
        pyLower "apple" = "apple") :=
  ⟨by decide, (C1_wordset_invariant ["apple"]).1 "apple" (by decide)⟩

/-! ## Claim C2 -/

/-- The five character raw token of the end-to-end scenario whose
middle character is the apostrophe, code point 39. -/
def apostropheToken : String :=
  String.mk ['a', 'b', Char.ofNat 39, 'c', 'd']

/-- Claim C2: `process_words` applied to the nine-element scenario
input returns exactly the list apple, brick, fjord, in that order. -/
theorem C2_end_to_end :
    process_words
      ["apple", "APPLE", "a cat", "brick", "#comment", apostropheToken,
       "12345", "fjord", ""] = ["apple", "brick", "fjord"] := by
  decide

/-! ## Claim C3 -/

/-- Claim C3: for every input list of raw lines, the output of
`process_words` is strictly ascending in the lexicographic order by
character code: every adjacent pair a, b satisfies a < b. -/
theorem C3_output_sorted (raw : List String) :
    List.Chain' (fun a b => pyStrLt a b = true) (process_words raw) := by
  obtain ⟨_, hnodup, _⟩ := process_words_clean_inv raw
  simp only [process_words]
  letI : IsTotal String (fun a b => pyStrLe a b = true) := ⟨pyStrLe_total⟩
  letI : IsTrans String (fun a b => pyStrLe a b = true) :=
    ⟨fun _ _ _ => pyStrLe_trans⟩
  have hs := List.sorted_insertionSort (fun a b => pyStrLe a b = true)
    ((raw.foldl processLine ([], [])).2)
  have hn : (List.insertionSort (fun a b => pyStrLe a b = true)
      ((raw.foldl processLine ([], [])).2)).Nodup :=
    (List.perm_insertionSort _ _).nodup_iff.mpr hnodup
  exact List.Pairwise.chain'
    (List.Pairwise.imp₂ (fun _ _ h1 h2 => pyStrLt_of_le_of_ne h1 h2) hs hn)

/-! ## Claim C4 -/

/-- Claim C4: if the word filter produces an empty word set, in
particular when it receives zero qualifying raw lines, the run ends
with the nonzero exit status 1 and no output file content is
produced; the output writer runs only when the filtered word list is
nonempty. -/
theorem C4_empty_fatal :
    (∀ members : List TarMember,
      process_words (extract_words members).1 = [] →
        runPipeline members = Except.error 1) ∧
    (∀ (members : List TarMember) (out : String × String),
      runPipeline members = Except.ok out →
        process_words (extract_words members).1 ≠ []) ∧
    runPipeline [] = Except.error 1 := by
  refine ⟨?_, ?_, rfl⟩
  · intro members h
    simp only [runPipeline]
    rw [if_pos h]
  · intro members out h hempty
    simp only [runPipeline] at h
    rw [if_pos hempty] at h
    exact Except.noConfusion h

/-- Witness for C4: the empty member list gives zero raw lines and
the run fails with status 1. -/
theorem C4_witness : runPipeline [] = Except.error 1 :=
  (C4_empty_fatal).1 [] rfl

/-! ## Claim C5 -/

/-- Claim C5: a member qualifies only if the trailing integer of its
name parses and lies within the inclusive bounds; concretely, with
bounds 10 and 70, the name english-words.85 matches the pattern at
level 85 but is excluded, and english-words.60 is included. -/
theorem C5_level_bounds :
    (∀ name : String, memberQualifies name = true →
      ∃ level, matchWordFile (pyBasename name) = some level ∧
        MIN_LEVEL ≤ level ∧ level ≤ MAX_LEVEL) ∧
    matchWordFile "english-words.85" = some 85 ∧
    memberQualifies "english-words.85" = false ∧
    memberQualifies "english-words.60" = true := by
  refine ⟨?_, by decide, by decide, by decide⟩
  intro name h
  rw [memberQualifies] at h
  cases hm : matchWordFile (pyBasename name) with
  | none => rw [hm] at h; exact Bool.noConfusion h
  | some level =>
    rw [hm] at h
    have h2 := of_decide_eq_true h
    exact ⟨level, rfl, h2.1, h2.2⟩

/-- Witness for C5 at the included concrete member name. -/
theorem C5_witness :
    ∃ level, matchWordFile (pyBasename "english-words.60") = some level ∧
      MIN_LEVEL ≤ level ∧ level ≤ MAX_LEVEL :=
  (C5_level_bounds).1 "english-words.60" (by decide)

/-! ## Claim C6 -/

/-- Claim C6 counterexample: `get_download_url` can fail.  A
metadata response whose bytes are not valid UTF-8 raises an uncaught
`UnicodeDecodeError` (it is not in the caught exception tuple), and a
response parsing to a JSON array raises an uncaught `AttributeError`
at `data.get`, so the claim that every error is caught internally and
a URL string is always returned is false on the code. -/
theorem C6_counterexample :
    get_download_url MetaResponse.decodeError =
      Except.error PyExc.unicodeDecodeError ∧
    get_download_url (MetaResponse.jsonValue (PyJson.jarr [])) =
      Except.error PyExc.attributeError :=
  ⟨rfl, rfl⟩

/-- Claim C6 as amended: the anticipated failures are caught and the
function then returns a URL string, namely network errors
(`URLError`), malformed JSON text (`JSONDecodeError`), and a missing
or empty `tarball_url` field, while a truthy string field is returned
as is; but a response body that is not valid UTF-8 propagates an
uncaught `UnicodeDecodeError`, and a response whose JSON value is not
an object propagates an uncaught `AttributeError`. -/
theorem C6_amended :
    get_download_url MetaResponse.netError =
      Except.ok (PyJson.jstr FALLBACK_URL) ∧
    get_download_url MetaResponse.jsonError =
      Except.ok (PyJson.jstr FALLBACK_URL) ∧
    (∀ fs, dictGet fs "tarball_url" (PyJson.jstr "") = PyJson.jstr "" →
      get_download_url (MetaResponse.jsonValue (PyJson.jobj fs)) =
        Except.ok (PyJson.jstr FALLBACK_URL)) ∧
    (∀ fs s, dictGet fs "tarball_url" (PyJson.jstr "") = PyJson.jstr s →
      s ≠ "" →
      get_download_url (MetaResponse.jsonValue (PyJson.jobj fs)) =
        Except.ok (PyJson.jstr s)) ∧
    get_download_url MetaResponse.decodeError =
      Except.error PyExc.unicodeDecodeError ∧
    (∀ xs, get_download_url (MetaResponse.jsonValue (PyJson.jarr xs)) =
      Except.error PyExc.attributeError) := by
  refine ⟨rfl, rfl, ?_, ?_, rfl, fun _ => rfl⟩
  · intro fs h
    simp [get_download_url, h, pyTruthy]
  · intro fs s h hne
    simp [get_download_url, h, pyTruthy, hne]

/-- Witness for C6 as amended: on an object response with no
tarball field, the fallback URL is returned. -/
theorem C6_witness :
    get_download_url (MetaResponse.jsonValue (PyJson.jobj [])) =
      Except.ok (PyJson.jstr FALLBACK_URL) :=
  (C6_amended).2.2.1 [] rfl

/-! ## Claim C7 -/

/-- Claim C7 counterexample: the step 3 check of the acceptance
predicate is `word.isalpha()`, and Python classifies accented letters
as alphabetic, so a token containing an accented letter is not
rejected by step 3: the token containing the accented letter
e-acute, a non-ASCII code point, passes the isalpha check (it is
rejected later, by the separate ASCII check, so the pipeline still
drops it). -/
theorem C7_counterexample :
    pyIsAlpha "éclat" = true ∧
    ('é' ∈ "éclat".data ∧ 128 ≤ 'é'.toNat) ∧
    process_words ["éclat"] = [] := by
  refine ⟨by decide, ⟨by decide, by decide⟩, by decide⟩

/-- Claim C7 as amended: step 3 rejects every token containing a
character that is not an alphabetic letter, in particular tokens
containing punctuation, digits, hyphens, apostrophes or the hash
sign; but tokens whose characters are all alphabetic accented
letters pass step 3 and are rejected only by the separate ASCII
check of step 4. -/
theorem C7_amended :
    (∀ w : String, (∃ c ∈ w.data, pyIsAlphaChar c = false) →
      pyIsAlpha w = false) ∧
    (∀ w : String, (∃ c ∈ w.data, 128 ≤ c.toNat) →
      pyEncodableAscii w = false) ∧
    pyIsAlphaChar (Char.ofNat 39) = false ∧ pyIsAlphaChar '-' = false ∧
    pyIsAlphaChar '1' = false ∧ pyIsAlphaChar '#' = false ∧
    pyIsAlpha "éclat" = true ∧ pyEncodableAscii "éclat" = false ∧
    process_words ["éclat"] = [] := by
  refine ⟨?_, ?_, by decide, by decide, by decide, by decide, by decide,
    by decide, by decide⟩
  · rintro w ⟨c, hc, hfalse⟩
    have hall : w.data.all pyIsAlphaChar = false := by
      cases hall : w.data.all pyIsAlphaChar with
      | false => rfl
      | true =>
        rw [List.all_eq_true] at hall
        rw [hall c hc] at hfalse
        exact Bool.noConfusion hfalse
    rw [pyIsAlpha, hall, Bool.and_false]
  · rintro w ⟨c, hc, h128⟩
    cases hall : w.data.all (fun c => decide (c.toNat < 128)) with
    | false => rw [pyEncodableAscii]; exact hall
    | true =>
      exfalso
      rw [List.all_eq_true] at hall
      have := of_decide_eq_true (hall c hc)
      omega

/-- Witness for C7 as amended, at a concrete token containing a
hyphen. -/
theorem C7_witness : pyIsAlpha "ab-cd" = false :=
  (C7_amended).1 "ab-cd" ⟨'-', by decide, by decide⟩

/-! ## Claim C9 -/

lemma takeWhile_append_stop {p : Char → Bool} :
    ∀ (l₁ : List Char) (x : Char) (l₂ : List Char),
      (∀ c ∈ l₁, p c = true) → p x = false →
      List.takeWhile p (l₁ ++ x :: l₂) = l₁ := by
  intro l₁
  induction l₁ with
  | nil =>
    intro x l₂ _ hx
    simp [List.takeWhile_cons, hx]
  | cons c cs ih =>
    intro x l₂ h hx
    simp only [List.cons_append, List.takeWhile_cons, h c (by simp), if_true]
    rw [ih x l₂ (fun d hd => h d (by simp [hd])) hx]

lemma takeWhile_all {p : Char → Bool} :
    ∀ l : List Char, (∀ c ∈ l, p c = true) → List.takeWhile p l = l := by
  intro l
  induction l with
  | nil => intro _; rfl
  | cons c cs ih =>
    intro h
    simp only [List.takeWhile_cons, h c (by simp), if_true]
    rw [ih (fun d hd => h d (by simp [hd]))]

lemma pyBasename_deep {dir fname : String} (h : ∀ c ∈ fname.data, c ≠ '/') :
    pyBasename (dir ++ "/" ++ fname) = fname := by
  rw [pyBasename]
  have hdata : (dir ++ "/" ++ fname).data.reverse =
      fname.data.reverse ++ '/' :: dir.data.reverse := by
    simp [String.data_append]
  rw [hdata, takeWhile_append_stop _ _ _
    (fun c hc => by
      rw [List.mem_reverse] at hc
      simpa using h c hc)
    (by decide)]
  rw [List.reverse_reverse, string_mk_data]

lemma pyBasename_flat {fname : String} (h : ∀ c ∈ fname.data, c ≠ '/') :
    pyBasename fname = fname := by
  rw [pyBasename, takeWhile_all _
    (fun c hc => by
      rw [List.mem_reverse] at hc
      simpa using h c hc)]
  rw [List.reverse_reverse, string_mk_data]

/-- Claim C9: member qualification is decided on the basename of the
archive entry name: for an entry at any path depth whose final
component has no slash, qualification agrees with qualification of
the final component alone, and a slash-free name qualifies exactly
when the pattern matches it with an in-range level; the concrete
entry scowl-x/final/english-words.50 qualifies. -/
theorem C9_basename_qualification :
    (∀ dir fname : String, (∀ c ∈ fname.data, c ≠ '/') →
      memberQualifies (dir ++ "/" ++ fname) = memberQualifies fname) ∧
    (∀ fname : String, (∀ c ∈ fname.data, c ≠ '/') →
      (memberQualifies fname = true ↔
        ∃ level, matchWordFile fname = some level ∧
          MIN_LEVEL ≤ level ∧ level ≤ MAX_LEVEL)) ∧
    memberQualifies "scowl-x/final/english-words.50" = true := by
  refine ⟨?_, ?_, by decide⟩
  · intro dir fname h
    rw [memberQualifies, memberQualifies, pyBasename_deep h, pyBasename_flat h]
  · intro fname h
    rw [memberQualifies, pyBasename_flat h]
    cases hm : matchWordFile fname with
    | none =>
      simp only [Bool.false_eq_true, false_iff]
      rintro ⟨level, hl, _, _⟩
      exact Option.noConfusion hl
    | some level =>
      simp only [decide_eq_true_eq]
      constructor
      · intro hd
        exact ⟨level, rfl, hd.1, hd.2⟩
      · rintro ⟨l, hl, h1, h2⟩
        injection hl with hl
        exact ⟨hl ▸ h1, hl ▸ h2⟩

/-- Witness for C9 at the concrete deep entry. -/
theorem C9_witness :
    memberQualifies ("scowl-x/final" ++ "/" ++ "english-words.50") =
      memberQualifies "english-words.50" :=
  (C9_basename_qualification).1 "scowl-x/final" "english-words.50" (by decide)

/-! ## Claim C10 -/

/-- Only ASCII uppercase letters move under the lowercase map, so any
character whose lowercase image avoids the range a to z is the sole
preimage of that image. -/
lemma lower_preimage {x a : Char} (hx : ¬(97 ≤ x.toNat ∧ x.toNat ≤ 122))
    (h : pyLowerChar a = x) : a = x := by
  by_cases hu : 65 ≤ a.toNat ∧ a.toNat ≤ 90
  · exfalso
    have := congrArg Char.toNat h
    rw [pyLowerChar_of_upper hu] at this
    omega
  · rw [← h, pyLowerChar_of_not_upper hu]

/-- Two characters with equal lowercase images are equal as soon as
one of them is neither an ASCII uppercase nor an ASCII lowercase
letter. -/
lemma cv_eq_of_fixed {a b : Char} (h : pyLowerChar a = pyLowerChar b)
    (ha1 : ¬(65 ≤ a.toNat ∧ a.toNat ≤ 90))
    (ha2 : ¬(97 ≤ a.toNat ∧ a.toNat ≤ 122)) : b = a := by
  apply lower_preimage ha2
  rw [← h, pyLowerChar_of_not_upper ha1]

lemma cv_isDigit {a b : Char} (h : pyLowerChar a = pyLowerChar b) :
    isDigitChar a = isDigitChar b := by
  cases da : isDigitChar a with
  | true =>
    rw [isDigitChar, decide_eq_true_eq] at da
    have hb : b = a := cv_eq_of_fixed h (by omega) (by omega)
    rw [hb, isDigitChar]
    exact (decide_eq_true da).symm
  | false =>
    cases db : isDigitChar b with
    | false => rfl
    | true =>
      rw [isDigitChar, decide_eq_true_eq] at db
      have hb : a = b := cv_eq_of_fixed h.symm (by omega) (by omega)
      rw [hb, isDigitChar] at da
      rw [decide_eq_true db] at da
      exact Bool.noConfusion da

/-- For a target character that is not an ASCII letter of either
case, equality with it transfers along equal lowercase images. -/
lemma cv_fixed_char {a b : Char} (x : Char)
    (h : pyLowerChar a = pyLowerChar b)
    (hx1 : ¬(65 ≤ x.toNat ∧ x.toNat ≤ 90))
    (hx2 : ¬(97 ≤ x.toNat ∧ x.toNat ≤ 122)) : (a = x) ↔ (b = x) := by
  constructor
  · intro ha
    subst ha
    exact cv_eq_of_fixed h hx1 hx2
  · intro hb
    subst hb
    exact cv_eq_of_fixed h.symm hx1 hx2

lemma forall2_of_map_eq {f : Char → Char} :
    ∀ {l₁ l₂ : List Char}, l₁.map f = l₂.map f →
      List.Forall₂ (fun a b => f a = f b) l₁ l₂ := by
  intro l₁
  induction l₁ with
  | nil =>
    intro l₂ h
    cases l₂ with
    | nil => exact List.Forall₂.nil
    | cons b bs => simp at h
  | cons a as ih =>
    intro l₂ h
    cases l₂ with
    | nil => simp at h
    | cons b bs =>
      simp only [List.map_cons, List.cons.injEq] at h
      exact List.Forall₂.cons h.1 (ih h.2)

lemma map_eq_of_forall2 {f : Char → Char} {l₁ l₂ : List Char}
    (h : List.Forall₂ (fun a b => f a = f b) l₁ l₂) : l₁.map f = l₂.map f := by
  induction h with
  | nil => rfl
  | cons hab _ ih => simp only [List.map_cons, ih, hab]

lemma forall2_take_drop {R : Char → Char → Prop} {p : Char → Bool}
    (hp : ∀ a b, R a b → p a = p b) :
    ∀ {l₁ l₂ : List Char}, List.Forall₂ R l₁ l₂ →
      List.Forall₂ R (l₁.takeWhile p) (l₂.takeWhile p) ∧
      List.Forall₂ R (l₁.dropWhile p) (l₂.dropWhile p) := by
  intro l₁ l₂ h
  induction h with
  | nil => exact ⟨List.Forall₂.nil, List.Forall₂.nil⟩
  | @cons a b t₁ t₂ hab htl ih =>
    cases hpa : p a with
    | true =>
      have hpb : p b = true := by rw [← hp a b hab, hpa]
      simp only [List.takeWhile_cons, List.dropWhile_cons, hpa, hpb, if_true]
      exact ⟨List.Forall₂.cons hab ih.1, ih.2⟩
    | false =>
      have hpb : p b = false := by rw [← hp a b hab, hpa]
      simp only [List.takeWhile_cons, List.dropWhile_cons, hpa, hpb,
        Bool.false_eq_true, if_false]
      exact ⟨List.Forall₂.nil, List.Forall₂.cons hab htl⟩

lemma forall2_digits_eq :
    ∀ {d₁ d₂ : List Char},
      List.Forall₂ (fun a b => pyLowerChar a = pyLowerChar b) d₁ d₂ →
      (∀ a ∈ d₁, isDigitChar a = true) → d₁ = d₂ := by
  intro d₁ d₂ h
  induction h with
  | nil => intro _; rfl
  | @cons a b t₁ t₂ hab _ ih =>
    intro hd
    have ha := hd a (by simp)
    rw [isDigitChar, decide_eq_true_eq] at ha
    have hb : b = a := cv_eq_of_fixed hab (by omega) (by omega)
    rw [hb, ih (fun x hx => hd x (by simp [hx]))]

lemma group1Matches_lower {g₁ g₂ : List Char}
    (h : g₁.map pyLowerChar = g₂.map pyLowerChar) :
    group1Matches g₁ = group1Matches g₂ := by
  simp only [group1Matches]
  rw [h]

lemma matchTail_cv (ds : List Char) {d₁ d₂ : List Char}
    (h : List.Forall₂ (fun a b => pyLowerChar a = pyLowerChar b) d₁ d₂) :
    matchTail ds d₁ = matchTail ds d₂ := by
  cases h with
  | nil => rfl
  | @cons x y t₁ t₂ hxy htl =>
    simp only [matchTail]
    have hg : group1Matches t₁.reverse = group1Matches t₂.reverse := by
      apply group1Matches_lower
      rw [List.map_reverse, List.map_reverse, map_eq_of_forall2 htl]
    rw [hg]
    exact if_congr
      (and_congr_left' (cv_fixed_char '.' hxy (by decide) (by decide)))
      rfl rfl

lemma matchCore_cv {l₁ l₂ : List Char}
    (h : List.Forall₂ (fun a b => pyLowerChar a = pyLowerChar b) l₁ l₂) :
    matchCore l₁ = matchCore l₂ := by
  obtain ⟨htake, hdrop⟩ := forall2_take_drop (fun a b hab => cv_isDigit hab) h
  have hds : l₁.takeWhile isDigitChar = l₂.takeWhile isDigitChar :=
    forall2_digits_eq htake (fun a ha => List.mem_takeWhile_imp ha)
  rw [matchCore, matchCore, hds]
  exact matchTail_cv _ hdrop

lemma matchRev_cv {l₁ l₂ : List Char}
    (h : List.Forall₂ (fun a b => pyLowerChar a = pyLowerChar b) l₁ l₂) :
    matchRev l₁ = matchRev l₂ := by
  cases h with
  | nil => rfl
  | @cons x y t₁ t₂ hxy htl =>
    simp only [matchRev]
    by_cases hx : x = '\n'
    · rw [if_pos hx,
        if_pos ((cv_fixed_char '\n' hxy (by decide) (by decide)).mp hx)]
      exact matchCore_cv htl
    · rw [if_neg hx,
        if_neg (fun hy => hx ((cv_fixed_char '\n' hxy (by decide) (by decide)).mpr hy))]
      exact matchCore_cv (List.Forall₂.cons hxy htl)

/-- Claim C10: matching of `WORD_FILE_PATTERN` is case insensitive:
changing letter cases in a member name, that is replacing the name by
any name with the same image under the ASCII lowercase map, does not
change the match result, and in particular ENGLISH-WORDS.60 matches
at level 60 exactly as english-words.60 does. -/
theorem C10_case_insensitive :
    (∀ s t : String, s.data.map pyLowerChar = t.data.map pyLowerChar →
      matchWordFile s = matchWordFile t) ∧
    matchWordFile "ENGLISH-WORDS.60" = some 60 ∧
    matchWordFile "english-words.60" = some 60 := by
  refine ⟨?_, by decide, by decide⟩
  intro s t h
  rw [matchWordFile, matchWordFile]
  apply matchRev_cv
  apply forall2_of_map_eq
  rw [List.map_reverse, List.map_reverse, h]

/-- Witness for C10 at the concrete pair of names differing only in
case. -/
theorem C10_witness :
    matchWordFile "ENGLISH-WORDS.60" = matchWordFile "english-words.60" :=
  (C10_case_insensitive).1 "ENGLISH-WORDS.60" "english-words.60" (by decide)

/-! ## Claim C8: helper lemmas for the text side -/

lemma splitLinesAux_append :
    ∀ (w acc rest : List Char), (∀ c ∈ w, c ≠ '\n') →
      splitLinesAux (w ++ '\n' :: rest) acc =
        (acc.reverse ++ w) :: splitLinesAux rest [] := by
  intro w
  induction w with
  | nil =>
    intro acc rest _
    simp [splitLinesAux]
  | cons c cs ih =>
    intro acc rest h
    have hc : c ≠ '\n' := h c (by simp)
    simp only [List.cons_append, splitLinesAux, if_neg hc]
    rw [show cs.append ('\n' :: rest) = cs ++ '\n' :: rest from rfl,
      ih (c :: acc) rest (fun d hd => h d (by simp [hd]))]
    simp

lemma txt_roundtrip :
    ∀ ws : List String, ws ≠ [] → (∀ w ∈ ws, ∀ c ∈ w.data, c ≠ '\n') →
      pySplitlines (pyJoin "\n" ws ++ "\n") = ws := by
  intro ws
  induction ws with
  | nil => intro h _; exact absurd rfl h
  | cons w ws' ih =>
    intro _ hsafe
    cases ws' with
    | nil =>
      have hdata : (pyJoin "\n" [w] ++ "\n").data = w.data ++ '\n' :: [] := by
        simp [pyJoin, String.data_append]
      rw [pySplitlines, hdata,
        splitLinesAux_append w.data [] [] (hsafe w (by simp))]
      simp [splitLinesAux, string_mk_data]
    | cons w2 ws'' =>
      have hjoin : pyJoin "\n" (w :: w2 :: ws'') =
          w ++ "\n" ++ pyJoin "\n" (w2 :: ws'') := rfl
      have hdata : (pyJoin "\n" (w :: w2 :: ws'') ++ "\n").data =
          w.data ++ '\n' :: (pyJoin "\n" (w2 :: ws'') ++ "\n").data := by
        rw [hjoin]
        simp [String.data_append]
      rw [pySplitlines, hdata,
        splitLinesAux_append w.data [] _ (hsafe w (by simp))]
      simp only [List.reverse_nil, List.nil_append, List.map_cons, string_mk_data]
      have : (splitLinesAux (pyJoin "\n" (w2 :: ws'') ++ "\n").data []).map String.mk =
          pySplitlines (pyJoin "\n" (w2 :: ws'') ++ "\n") := rfl
      rw [this, ih (by simp) (fun x hx => hsafe x (by simp [hx]))]

/-! ## Claim C8: helper lemmas for the JSON side -/

/-- The character sequence of the comma separated items of the JSON
dump, from the first opening quote on: each item is a quoted word,
and consecutive items are joined by a comma, a newline and the
two-space indent. -/
def itemsChars : List String → List Char
  | [] => []
  | w :: ws =>
    match ws with
    | [] => '"' :: (w.data ++ ['"'])
    | _ :: _ =>
      '"' :: (w.data ++ '"' :: ',' :: '\n' :: ' ' :: ' ' :: itemsChars ws)

lemma az_ne {c : Char} (h : 97 ≤ c.toNat ∧ c.toNat ≤ 122) (x : Char)
    (hx : x.toNat < 97 ∨ 122 < x.toNat) : c ≠ x := by
  intro he
  subst he
  omega

lemma jsonEscapeChar_id {c : Char} (h : 97 ≤ c.toNat ∧ c.toNat ≤ 122) :
    jsonEscapeChar c = String.mk [c] := by
  rw [jsonEscapeChar,
    if_neg (az_ne h '"' (by decide)), if_neg (az_ne h '\\' (by decide)),
    if_neg (az_ne h '\n' (by decide)), if_neg (az_ne h '\r' (by decide)),
    if_neg (az_ne h '\t' (by decide)), if_neg (az_ne h '\x08' (by decide)),
    if_neg (az_ne h '\x0c' (by decide)), if_neg (by omega)]

lemma jsonEscapeList_id :
    ∀ l : List Char, (∀ c ∈ l, 97 ≤ c.toNat ∧ c.toNat ≤ 122) →
      jsonEscapeList l = l := by
  intro l
  induction l with
  | nil => intro _; rfl
  | cons c cs ih =>
    intro h
    rw [jsonEscapeList, jsonEscapeChar_id (h c (by simp)),
      ih (fun d hd => h d (by simp [hd]))]
    rfl

lemma items_data :
    ∀ ws : List String, ws ≠ [] →
      (∀ w ∈ ws, ∀ c ∈ w.data, 97 ≤ c.toNat ∧ c.toNat ≤ 122) →
      (pyJoin ",\n"
        (ws.map (fun w => "  \"" ++ String.mk (jsonEscapeList w.data) ++ "\""))).data =
        ' ' :: ' ' :: itemsChars ws := by
  intro ws
  induction ws with
  | nil => intro h _; exact absurd rfl h
  | cons w ws' ih =>
    intro _ hsafe
    cases ws' with
    | nil =>
      simp only [List.map_cons, List.map_nil, pyJoin, itemsChars,
        String.data_append, jsonEscapeList_id w.data (hsafe w (by simp))]
      simp
    | cons w2 ws'' =>
      have hjoin : pyJoin ",\n"
          ((w :: w2 :: ws'').map
            (fun w => "  \"" ++ String.mk (jsonEscapeList w.data) ++ "\"")) =
          ("  \"" ++ String.mk (jsonEscapeList w.data) ++ "\"") ++ ",\n" ++
            pyJoin ",\n"
              ((w2 :: ws'').map
                (fun w => "  \"" ++ String.mk (jsonEscapeList w.data) ++ "\"")) := rfl
      rw [hjoin]
      simp only [String.data_append, jsonEscapeList_id w.data (hsafe w (by simp)),
        ih (by simp) (fun x hx => hsafe x (by simp [hx]))]
      simp [itemsChars]

lemma jsonDump_data {ws : List String} (hne : ws ≠ [])
    (hsafe : ∀ w ∈ ws, ∀ c ∈ w.data, 97 ≤ c.toNat ∧ c.toNat ≤ 122) :
    (jsonDumpStrList ws).data =
      '[' :: '\n' :: ' ' :: ' ' :: (itemsChars ws ++ ['\n', ']']) := by
  cases ws with
  | nil => exact absurd rfl hne
  | cons w ws' =>
    have hdump : jsonDumpStrList (w :: ws') =
        "[\n" ++
          pyJoin ",\n"
            ((w :: ws').map
              (fun w => "  \"" ++ String.mk (jsonEscapeList w.data) ++ "\"")) ++
          "\n]" := rfl
    rw [hdump]
    simp only [String.data_append, items_data (w :: ws') (by simp) hsafe]
    simp

lemma itemsChars_head (w : String) (ws : List String) :
    ∃ t, itemsChars (w :: ws) = '"' :: t := by
  cases ws with
  | nil => exact ⟨w.data ++ ['"'], rfl⟩
  | cons w2 ws' =>
    exact ⟨w.data ++ '"' :: ',' :: '\n' :: ' ' :: ' ' :: itemsChars (w2 :: ws'), rfl⟩

lemma itemsChars_length :
    ∀ ws : List String, ws.length ≤ (itemsChars ws).length := by
  intro ws
  induction ws with
  | nil => simp [itemsChars]
  | cons w ws' ih =>
    cases ws' with
    | nil => simp [itemsChars]
    | cons w2 ws'' =>
      have : itemsChars (w :: w2 :: ws'') =
          '"' :: (w.data ++ '"' :: ',' :: '\n' :: ' ' :: ' ' ::
            itemsChars (w2 :: ws'')) := rfl
      rw [this]
      simp only [List.length_cons, List.length_append] at ih ⊢
      omega

lemma dropWhile_cons_true {p : Char → Bool} {c : Char} {l : List Char}
    (h : p c = true) : (c :: l).dropWhile p = l.dropWhile p := by
  simp [List.dropWhile_cons, h]

lemma dropWhile_cons_false {p : Char → Bool} {c : Char} {l : List Char}
    (h : p c = false) : (c :: l).dropWhile p = c :: l := by
  simp [List.dropWhile_cons, h]

lemma scan_append :
    ∀ (w rest : List Char), (∀ c ∈ w, c ≠ '"' ∧ c ≠ '\\') →
      scanJsonString (w ++ '"' :: rest) = some (w, rest) := by
  intro w
  induction w with
  | nil =>
    intro rest _
    simp [scanJsonString]
  | cons c cs ih =>
    intro rest h
    obtain ⟨hq, hb⟩ := h c (by simp)
    simp only [List.cons_append, scanJsonString, if_neg hq, if_neg hb]
    rw [show cs.append ('"' :: rest) = cs ++ '"' :: rest from rfl,
      ih rest (fun d hd => h d (by simp [hd]))]
    rfl

lemma parseJsonString_quote (cs : List Char) :
    parseJsonString ('"' :: cs) = scanJsonString cs := by
  simp [parseJsonString]

lemma parseItems_render :
    ∀ (ws : List String) (fuel : Nat) (rest : List Char), ws ≠ [] →
      (∀ w ∈ ws, ∀ c ∈ w.data, 97 ≤ c.toNat ∧ c.toNat ≤ 122) →
      ws.length ≤ fuel →
      parseJsonItems fuel (itemsChars ws ++ '\n' :: ']' :: rest) =
        some (ws, rest) := by
  intro ws
  induction ws with
  | nil => intro fuel rest h; exact absurd rfl h
  | cons w ws' ih =>
    intro fuel rest _ hsafe hfuel
    cases fuel with
    | zero => simp at hfuel
    | succ f =>
      have hw : ∀ c ∈ w.data, c ≠ '"' ∧ c ≠ '\\' := fun c hc =>
        ⟨az_ne (hsafe w (by simp) c hc) '"' (by decide),
         az_ne (hsafe w (by simp) c hc) '\\' (by decide)⟩
      cases ws' with
      | nil =>
        have hin : itemsChars [w] ++ '\n' :: ']' :: rest =
            '"' :: (w.data ++ '"' :: '\n' :: ']' :: rest) := by
          simp [itemsChars]
        rw [hin]
        simp only [parseJsonItems, parseJsonString_quote]
        rw [scan_append w.data _ hw]
        simp [jsonWsChar, List.dropWhile_cons, string_mk_data]
      | cons w2 ws'' =>
        have hin : itemsChars (w :: w2 :: ws'') ++ '\n' :: ']' :: rest =
            '"' :: (w.data ++ '"' :: ',' :: '\n' :: ' ' :: ' ' ::
              (itemsChars (w2 :: ws'') ++ '\n' :: ']' :: rest)) := by
          simp [itemsChars]
        have hdw : (itemsChars (w2 :: ws'') ++
            '\n' :: ']' :: rest).dropWhile jsonWsChar =
            itemsChars (w2 :: ws'') ++ '\n' :: ']' :: rest := by
          obtain ⟨t, ht⟩ := itemsChars_head w2 ws''
          rw [ht, List.cons_append,
            dropWhile_cons_false (show jsonWsChar '"' = false from rfl)]
        have hrec := ih f rest (by simp)
          (fun x hx => hsafe x (by simp [hx]))
          (by simp only [List.length_cons] at hfuel ⊢; omega)
        rw [hin]
        simp only [parseJsonItems, parseJsonString_quote]
        rw [scan_append w.data _ hw]
        simp only [dropWhile_cons_false (show jsonWsChar ',' = false from rfl),
          dropWhile_cons_true (show jsonWsChar '\n' = true from rfl),
          dropWhile_cons_true (show jsonWsChar ' ' = true from rfl)]
        rw [hdw, hrec]
        simp [string_mk_data]

/-- Claim C8: for every nonempty finalized word list (a list of
words of lowercase ASCII letters, as `process_words` produces), the
two outputs written by `save_outputs` agree: parsing the JSON output
file content yields exactly the words, reading the text output file
content line by line yields exactly the words, and hence the two
reads coincide. -/
theorem C8_round_trip (words : List String) (hne : words ≠ [])
    (hgood : ∀ w ∈ words, ∀ c ∈ w.data, 97 ≤ c.toNat ∧ c.toNat ≤ 122) :
    parseJsonStringArray (jsonFileContent words) = some words ∧
    pySplitlines (txtFileContent words) = words ∧
    parseJsonStringArray (jsonFileContent words) =
      some (pySplitlines (txtFileContent words)) := by
  have htxt : pySplitlines (txtFileContent words) = words := by
    rw [txtFileContent]
    exact txt_roundtrip words hne
      (fun w hw c hc => az_ne (hgood w hw c hc) '\n' (by decide))
  have hjson : parseJsonStringArray (jsonFileContent words) = some words := by
    cases words with
    | nil => exact absurd rfl hne
    | cons w ws' =>
      obtain ⟨t, ht⟩ := itemsChars_head w ws'
      have hdata : (jsonFileContent (w :: ws')).data =
          '[' :: '\n' :: ' ' :: ' ' ::
            (itemsChars (w :: ws') ++ '\n' :: ']' :: ['\n']) := by
        rw [jsonFileContent]
        rw [String.data_append, jsonDump_data (by simp) hgood]
        simp
      have hdw : (itemsChars (w :: ws') ++
          '\n' :: ']' :: ['\n']).dropWhile jsonWsChar =
          itemsChars (w :: ws') ++ '\n' :: ']' :: ['\n'] := by
        rw [ht, List.cons_append,
          dropWhile_cons_false (show jsonWsChar '"' = false from rfl)]
      have hlen : (w :: ws').length ≤
          (itemsChars (w :: ws') ++ '\n' :: ']' :: ['\n']).length + 1 := by
        have := itemsChars_length (w :: ws')
        simp only [List.length_append, List.length_cons] at this ⊢
        omega
      have hrender := parseItems_render (w :: ws')
        ((itemsChars (w :: ws') ++ '\n' :: ']' :: ['\n']).length + 1)
        ['\n'] (by simp) hgood hlen
      rw [parseJsonStringArray, hdata]
      simp only [dropWhile_cons_false (show jsonWsChar '[' = false from rfl),
        dropWhile_cons_true (show jsonWsChar '\n' = true from rfl),
        dropWhile_cons_true (show jsonWsChar ' ' = true from rfl)]
      rw [hdw, ht, List.cons_append]
      simp only []
      rw [if_pos trivial, if_neg (by decide : ¬('"' = ']'))]
      rw [← List.cons_append, ← ht, hrender]
      simp [jsonWsChar, List.dropWhile_cons]
  exact ⟨hjson, htxt, by rw [htxt, hjson]⟩

/-- Witness for C8 at the concrete two-word list. -/
theorem C8_witness :
    parseJsonStringArray (jsonFileContent ["apple", "brick"]) =
      some ["apple", "brick"] ∧
    pySplitlines (txtFileContent ["apple", "brick"]) = ["apple", "brick"] ∧
    parseJsonStringArray (jsonFileContent ["apple", "brick"]) =
      some (pySplitlines (txtFileContent ["apple", "brick"])) :=
  C8_round_trip ["apple", "brick"] (by decide) (by decide)
